import Mathlib

/-!
Verification of the hybrid search engine
(`assets/templates/SimilarityEngines/hybrid-search-engine.py`) and the
similarity benchmarker (`scripts/similarity_benchmarker.py`) against their
natural-language specification.

Modelling conventions:
* Python floats are modelled as rationals (`ℚ`); all scores in the two
  files arise from field arithmetic on inputs, so `ℚ` is exact for them.
* Python dicts are insertion-ordered association lists with unique keys;
  `d[k] = v` updates in place when `k` is present and appends otherwise.
* Python `sorted(..., key=lambda x: x[1], reverse=True)` is a stable sort,
  modelled by `List.insertionSort` with the relation "second component is
  greater or equal", which is likewise stable.
* Python exceptions are modelled by `Except`: an uncaught exception inside
  a loop aborts the whole call, discarding any locally accumulated results.
-/

namespace HybridSearch

/-- Python `sorted(pairs, key=lambda x: x[1], reverse=True)`: a stable sort,
descending in the second component.  Ties keep their input order. -/
def sortByScoreDesc (l : List (ℕ × ℚ)) : List (ℕ × ℚ) :=
  l.insertionSort (fun a b => b.2 ≤ a.2)

/-- Python dict assignment `d[k] = v`: if `k` is already a key, its value is
replaced in place (keeping the key's position); otherwise `(k, v)` is
appended at the end (dict insertion order). -/
def dictSet (d : List (ℕ × ℚ)) (k : ℕ) (v : ℚ) : List (ℕ × ℚ) :=
  match d with
  | [] => [(k, v)]
  | (k', v') :: rest =>
    if k' = k then (k, v) :: rest else (k', v') :: dictSet rest k v

/-- Python dict lookup `d.get(k)` / `k in d`: value of the first entry with
key `k`, if any. -/
def dictGet? (d : List (ℕ × ℚ)) (k : ℕ) : Option ℚ :=
  match d with
  | [] => none
  | (k', v') :: rest => if k' = k then some v' else dictGet? rest k

/-- Python `max(xs) if xs else 1.0`, used for the keyword max-score
normalizers in `_fuse_weighted` and `_fuse_combmnz`. -/
def pyMax : List ℚ → ℚ
  | [] => 1
  | x :: xs => xs.foldl max x

/-- First loop of `HybridSearchEngine._fuse_weighted`:
`scores[idx] = self.semantic_weight * score` over the semantic results. -/
def weightedSemPass (w : ℚ) : List (ℕ × ℚ) → List (ℕ × ℚ) → List (ℕ × ℚ)
  | d, [] => d
  | d, (idx, score) :: rest => weightedSemPass w (dictSet d idx (w * score)) rest

/-- Second loop of `HybridSearchEngine._fuse_weighted`: normalize each
keyword score by `max_keyword` (0 when `max_keyword ≤ 0`) and add
`keyword_weight * normalized` to the entry, creating it if absent. -/
def weightedKwPass (w maxK : ℚ) : List (ℕ × ℚ) → List (ℕ × ℚ) → List (ℕ × ℚ)
  | d, [] => d
  | d, (idx, score) :: rest =>
    let normalized : ℚ := if 0 < maxK then score / maxK else 0
    let d' : List (ℕ × ℚ) :=
      match dictGet? d idx with
      | some old => dictSet d idx (old + w * normalized)
      | none => dictSet d idx (w * normalized)
    weightedKwPass w maxK d' rest

/-- Embeds `HybridSearchEngine._fuse_weighted`. -/
def fuse_weighted (semantic_weight keyword_weight : ℚ)
    (semantic_results keyword_results : List (ℕ × ℚ)) : List (ℕ × ℚ) :=
  let scores := weightedSemPass semantic_weight [] semantic_results
  let max_keyword := pyMax (keyword_results.map Prod.snd)
  sortByScoreDesc (weightedKwPass keyword_weight max_keyword scores keyword_results)

/-- First loop of `HybridSearchEngine._fuse_rrf`:
`scores[idx] = 1 / (k + rank)` for `rank` enumerating the semantic results
from 1 (assignment, not addition). -/
def rrfSemPass (k : ℕ) : ℕ → List (ℕ × ℚ) → List (ℕ × ℚ) → List (ℕ × ℚ)
  | _, d, [] => d
  | rank, d, (idx, _) :: rest =>
    rrfSemPass k (rank + 1) (dictSet d idx (1 / (k + rank : ℚ))) rest

/-- Second loop of `HybridSearchEngine._fuse_rrf`: add `1 / (k + rank)` to
the entry for `idx`, creating it if absent. -/
def rrfKwPass (k : ℕ) : ℕ → List (ℕ × ℚ) → List (ℕ × ℚ) → List (ℕ × ℚ)
  | _, d, [] => d
  | rank, d, (idx, _) :: rest =>
    let d' : List (ℕ × ℚ) :=
      match dictGet? d idx with
      | some old => dictSet d idx (old + 1 / (k + rank : ℚ))
      | none => dictSet d idx (1 / (k + rank : ℚ))
    rrfKwPass k (rank + 1) d' rest

/-- Embeds `HybridSearchEngine._fuse_rrf`; in the source `k` is a keyword
argument defaulting to 60. -/
def fuse_rrf (semantic_results keyword_results : List (ℕ × ℚ)) (k : ℕ) :
    List (ℕ × ℚ) :=
  sortByScoreDesc (rrfKwPass k 1 (rrfSemPass k 1 [] semantic_results) keyword_results)

/-- Python `dict(pairs)`: later occurrences of a key overwrite earlier ones,
keys keep first-insertion order. -/
def dictOfListAux : List (ℕ × ℚ) → List (ℕ × ℚ) → List (ℕ × ℚ)
  | d, [] => d
  | d, (idx, v) :: rest => dictOfListAux (dictSet d idx v) rest

/-- Python `dict(pairs)` as used for `semantic_dict` and `keyword_dict` in
`HybridSearchEngine._fuse_combmnz`. -/
def dictOfList (l : List (ℕ × ℚ)) : List (ℕ × ℚ) :=
  dictOfListAux [] l

/-- Python `set(semantic_dict.keys()) | set(keyword_dict.keys())` from
`_fuse_combmnz`.  CPython iterates a set in an unspecified
(hash-dependent) order; any duplicate-free enumeration is a faithful
model, and no verified property depends on this order. -/
def allIndices (semD kwD : List (ℕ × ℚ)) : List ℕ :=
  (semD.map Prod.fst ++ kwD.map Prod.fst).dedup

/-- Per-index body of the `_fuse_combmnz` loop: the pair
`(scores[idx], counts[idx])` computed from the two dicts, where the
keyword score is divided by `max_keyword` when that is positive and the
count is the number of strictly positive contributions. -/
def combmnzEntry (semD kwD : List (ℕ × ℚ)) (maxK : ℚ) (idx : ℕ) : ℚ × ℕ :=
  let sem_score := (dictGet? semD idx).getD 0
  let kw_score : ℚ := if 0 < maxK then (dictGet? kwD idx).getD 0 / maxK else 0
  (sem_score + kw_score,
    (if 0 < sem_score then 1 else 0) + (if 0 < kw_score then 1 else 0))

/-- Embeds `HybridSearchEngine._fuse_combmnz`:
`final_scores[idx] = scores[idx] * counts[idx]`, then sort. -/
def fuse_combmnz (semantic_results keyword_results : List (ℕ × ℚ)) :
    List (ℕ × ℚ) :=
  let semantic_dict := dictOfList semantic_results
  let keyword_dict := dictOfList keyword_results
  let max_keyword := pyMax (keyword_dict.map Prod.snd)
  sortByScoreDesc ((allIndices semantic_dict keyword_dict).map fun idx =>
    let e := combmnzEntry semantic_dict keyword_dict max_keyword idx
    (idx, e.1 * e.2))

example : fuse_rrf [(5, 1)] [(3, 1)] 60 = [(5, 1/61), (3, 1/61)] := by
  norm_num [fuse_rrf, rrfSemPass, rrfKwPass, dictSet, dictGet?, sortByScoreDesc,
    List.insertionSort, List.orderedInsert]

example : fuse_weighted (7/10) (3/10) [(0, 1)] [(0, 5)] = [(0, 1)] := by
  norm_num [fuse_weighted, weightedSemPass, weightedKwPass, pyMax, dictSet,
    dictGet?, sortByScoreDesc, List.insertionSort, List.orderedInsert]

example : fuse_combmnz [(0, -1)] [] = [(0, 0)] := by
  norm_num [fuse_combmnz, dictOfList, dictOfListAux, allIndices, combmnzEntry,
    pyMax, dictSet, dictGet?, sortByScoreDesc, List.insertionSort,
    List.orderedInsert, List.dedup, List.pwFilter]

example : fuse_combmnz [(1, 1/2)] [(1, 4), (0, 2)] = [(1, 3), (0, 1/2)] := by
  norm_num [fuse_combmnz, dictOfList, dictOfListAux, allIndices, combmnzEntry,
    pyMax, dictSet, dictGet?, sortByScoreDesc, List.insertionSort,
    List.orderedInsert, List.dedup, List.pwFilter]

/-- Python regex word character for `re.findall(r'\w+', ...)` (ASCII range):
a letter, a digit, or an underscore. -/
def isWordChar (c : Char) : Bool :=
  c.isAlphanum || c = '_'

/-- Splits a character list into the maximal runs of word characters,
discarding everything else; the list-level content of
`re.findall(r'\w+', s)`.  `cur` is the run currently being read, in
reverse. -/
def wordRunsAux (cur : List Char) : List Char → List (List Char)
  | [] => if cur.isEmpty then [] else [cur.reverse]
  | c :: cs =>
    if isWordChar c then
      wordRunsAux (c :: cur) cs
    else if cur.isEmpty then
      wordRunsAux [] cs
    else
      cur.reverse :: wordRunsAux [] cs

/-- Embeds `HybridSearchEngine._tokenize`:
`re.findall(r'\w+', text.lower())`.  Python `str.lower` is applied
character by character (exact for the ASCII range). -/
def tokenize (text : String) : List String :=
  (wordRunsAux [] (text.toList.map Char.toLower)).map List.asString

/-- Modelled from the spec: the scoring of the third-party
`rank_bm25.BM25Okapi.get_scores`, which is not part of this repository.
Per the spec, query scoring "sums contributions over query tokens present
in the document", each present token contributing positively through a
term-frequency factor and a token absent from the document contributing
exactly 0; the model keeps the raw term-frequency as the contribution.
Everything the verified claims use — one score per document, zero-overlap
documents scored exactly 0, an empty token list scoring every document
0 — holds of the real BM25 formula as well. -/
def bm25_get_scores (corpus : List (List String)) (query_tokens : List String) :
    List ℚ :=
  corpus.map fun doc => (query_tokens.map fun t => (doc.count t : ℚ)).sum

/-- Models `np.argsort(scores)[::-1]`: the document indices ordered by
descending score.  NumPy's default quicksort leaves the order of equal
scores unspecified; this model fixes one such order, and no verified
property depends on which tied order is produced. -/
def argsortDesc (scores : List ℚ) : List ℕ :=
  (sortByScoreDesc scores.enum).map Prod.fst

/-- Embeds the body of `HybridSearchEngine._keyword_search` after the BM25
object lookup: score every document, take the `top_k` highest-scoring
indices, and pair each with its score. -/
def keyword_search_core (corpus : List (List String)) (query : String)
    (top_k : ℕ) : List (ℕ × ℚ) :=
  let scores := bm25_get_scores corpus (tokenize query)
  let top_indices := (argsortDesc scores).take top_k
  top_indices.map fun idx => (idx, scores.getD idx 0)

/-- Errors a `HybridSearchEngine.search` call can surface, plus the two
error names the spec postulates.  `noneTypeError` is the unhandled Python
`AttributeError` from calling a method on a `None` index; `valueError` is
the explicit `raise ValueError` for an unknown fusion strategy;
`indexError` is `self.items[idx]` out of range.  `notIndexed` and
`invalidParameter` are modelled from the spec only — no code path raises
them. -/
inductive SearchError where
  | noneTypeError : SearchError
  | valueError : String → SearchError
  | indexError : SearchError
  | notIndexed : SearchError
  | invalidParameter : SearchError
deriving DecidableEq, Repr

/-- Embeds the `SearchResult` dataclass. -/
structure SearchResult where
  id : String
  text : String
  score : ℚ
  metadata : List (String × String)
deriving DecidableEq, Repr

/-- State of a `HybridSearchEngine` as far as `search` observes it.  An
item is its metadata dict (string keys and values).  The FAISS index plus
the sentence-transformer encoder are external; they are modelled as a
function from the query to the index's full descending candidate ranking,
of which `_semantic_search` requests the first `top_k`.  The BM25 object
stores the tokenized corpus it was built from.  Both index fields are
`none` until `add_items` has run. -/
structure HybridSearchEngine where
  fusion_strategy : String
  semantic_weight : ℚ
  keyword_weight : ℚ
  items : List (List (String × String))
  vector_index : Option (String → List (ℕ × ℚ))
  bm25 : Option (List (List String))

/-- Embeds `HybridSearchEngine._semantic_search`: calling
`self.vector_index.search` with `self.vector_index = None` raises. -/
def semantic_search (e : HybridSearchEngine) (query : String) (top_k : ℕ) :
    Except SearchError (List (ℕ × ℚ)) :=
  match e.vector_index with
  | none => .error .noneTypeError
  | some index => .ok ((index query).take top_k)

/-- Embeds `HybridSearchEngine._keyword_search`: calling
`self.bm25.get_scores` with `self.bm25 = None` raises. -/
def keyword_search (e : HybridSearchEngine) (query : String) (top_k : ℕ) :
    Except SearchError (List (ℕ × ℚ)) :=
  match e.bm25 with
  | none => .error .noneTypeError
  | some corpus => .ok (keyword_search_core corpus query top_k)

/-- Python dict lookup on string-keyed metadata (`item.get(k)`). -/
def itemGet? (item : List (String × String)) (k : String) : Option String :=
  match item with
  | [] => none
  | (k', v') :: rest => if k' = k then some v' else itemGet? rest k

/-- The filter test in `search`: Python `if filters:` is false for both
`None` and `{}`, and `all(item.get(k) == v for k, v in filters.items())`
is vacuously true for `{}`, so an empty dict behaves like `none`. -/
def matchesFilters (filters : Option (List (String × String)))
    (item : List (String × String)) : Bool :=
  match filters with
  | none => true
  | some fs => fs.all fun kv => itemGet? item kv.1 == some kv.2

/-- The `SearchResult(...)` construction in `search`. -/
def mkSearchResult (idx : ℕ) (score : ℚ) (item : List (String × String)) :
    SearchResult :=
  ⟨toString idx, (itemGet? item "text").getD "", score,
    item.filter fun kv => kv.1 != "text"⟩

/-- Embeds the result-collection loop of `search`: walk the fused list,
raise on an out-of-range item index, skip entries failing the metadata
filter, and stop once `len(results) >= top_k` — the bound is checked only
after an append, so `need` is the caller's `top_k` minus the number of
results appended so far and the loop stops when `need ≤ 1` right after
appending. -/
def searchLoop (items : List (List (String × String)))
    (filters : Option (List (String × String))) :
    ℤ → List (ℕ × ℚ) → Except SearchError (List SearchResult)
  | _, [] => .ok []
  | need, (idx, score) :: rest =>
    match items.get? idx with
    | none => .error .indexError
    | some item =>
      if matchesFilters filters item then
        if need ≤ 1 then
          .ok [mkSearchResult idx score item]
        else
          match searchLoop items filters (need - 1) rest with
          | .error e => .error e
          | .ok results => .ok (mkSearchResult idx score item :: results)
      else
        searchLoop items filters need rest

/-- Embeds `HybridSearchEngine.search`; in the source `top_k`, `filters`
and `search_top_k` are keyword arguments defaulting to `10`, `None` and
`100`. -/
def search (e : HybridSearchEngine) (query : String) (top_k : ℤ)
    (filters : Option (List (String × String))) (search_top_k : ℕ) :
    Except SearchError (List SearchResult) :=
  match semantic_search e query search_top_k with
  | .error err => .error err
  | .ok semantic_results =>
    match keyword_search e query search_top_k with
    | .error err => .error err
    | .ok keyword_results =>
      if e.fusion_strategy = "weighted" then
        searchLoop e.items filters top_k
          (fuse_weighted e.semantic_weight e.keyword_weight
            semantic_results keyword_results)
      else if e.fusion_strategy = "rrf" then
        searchLoop e.items filters top_k
          (fuse_rrf semantic_results keyword_results 60)
      else if e.fusion_strategy = "combmnz" then
        searchLoop e.items filters top_k
          (fuse_combmnz semantic_results keyword_results)
      else
        .error (.valueError ("Unknown fusion strategy: " ++ e.fusion_strategy))

example : tokenize "Deep neural-networks, for AI!" =
    ["deep", "neural", "networks", "for", "ai"] := by
  decide

example : tokenize "" = [] := by decide

example : keyword_search_core [["a"], ["b"]] "a" 2 = [(0, 1), (1, 0)] := by
  have h : tokenize "a" = ["a"] := by decide
  norm_num [keyword_search_core, bm25_get_scores, h, argsortDesc,
    sortByScoreDesc, List.insertionSort, List.orderedInsert, List.enum,
    List.enumFrom, List.count, List.countP, List.countP.go]
  decide

end HybridSearch

namespace Benchmarker

/-- NumPy `np.mean` on a rational sample.  `np.mean([])` is NaN; the model
returns 0 there and no verified property evaluates the mean of an empty
sample. -/
def pyMean (l : List ℚ) : ℚ :=
  l.sum / (l.length : ℚ)

/-- Embeds `SimilarityBenchmarker._compute_recall`: per query,
`len(set(pred[:k]) & set(truth[:k])) / len(set(truth[:k]))`, then the mean
over the zipped query rows.  Python raises `ZeroDivisionError` when a
ground-truth row truncates to the empty set; rational division by zero
(which yields 0) stands in for that case, and every verified property
restricts to nonempty truncations. -/
def compute_recall (predicted ground_truth : List (List ℕ)) (k : ℕ) : ℚ :=
  pyMean ((predicted.zip ground_truth).map fun pt =>
    (((pt.1.take k).toFinset ∩ (pt.2.take k).toFinset).card : ℚ) /
      ((pt.2.take k).toFinset.card : ℚ))

/-- Inner loop of `SimilarityBenchmarker.benchmark_ivf` (`for nprobe in
nprobe_values`).  The FAISS index construction, searching and metric
computation for one parameter combination are external to the repository
and are abstracted as `runCombo nlist nprobe`, which either produces that
combination's benchmark record or raises.  The loop itself has no
exception handling, so a raise propagates and the locally accumulated
`results` are discarded. -/
def ivfInner {α : Type} (runCombo : ℕ → ℕ → Except String α) (nlist : ℕ) :
    List ℕ → Except String (List α)
  | [] => .ok []
  | nprobe :: rest =>
    match runCombo nlist nprobe with
    | .error e => .error e
    | .ok r =>
      match ivfInner runCombo nlist rest with
      | .error e => .error e
      | .ok more => .ok (r :: more)

/-- Embeds the loop structure of `SimilarityBenchmarker.benchmark_ivf`
(`for nlist in nlist_values: ... for nprobe in nprobe_values: ...`), with
the per-combination work abstracted as in `ivfInner`.  Neither this loop
nor its caller `run_all_benchmarks` contains a `try`/`except`, so any
failing combination aborts the whole sweep. -/
def benchmark_ivf {α : Type} (runCombo : ℕ → ℕ → Except String α) :
    List ℕ → List ℕ → Except String (List α)
  | [], _ => .ok []
  | nlist :: rest, nprobe_values =>
    match ivfInner runCombo nlist nprobe_values with
    | .error e => .error e
    | .ok rs =>
      match benchmark_ivf runCombo rest nprobe_values with
      | .error e => .error e
      | .ok more => .ok (rs ++ more)

/-- A per-combination runner that fails exactly on `nprobe = 0` (the
spec's example of an invalid parameter) and otherwise reports the
combination it measured. -/
def nprobeZeroFails (nlist nprobe : ℕ) : Except String (ℕ × ℕ) :=
  if nprobe = 0 then .error "nprobe must be positive" else .ok (nlist, nprobe)

/-- A per-combination runner on which every combination succeeds. -/
def allCombosSucceed (nlist nprobe : ℕ) : Except String (ℕ × ℕ) :=
  .ok (nlist, nprobe)

example :
    benchmark_ivf nprobeZeroFails [4] [1, 10, 0, 50] =
      .error "nprobe must be positive" := rfl

example :
    benchmark_ivf allCombosSucceed [100, 1000] [1, 10] =
      .ok [(100, 1), (100, 10), (1000, 1), (1000, 10)] := rfl

example : compute_recall [[0, 1]] [[1, 2]] 2 = 1/2 := by
  have h1 : (([0, 1].take 2).toFinset ∩ ([1, 2].take 2).toFinset).card = 1 := by
    decide
  have h2 : ([1, 2].take 2).toFinset.card = 2 := by decide
  norm_num [compute_recall, pyMean, h1, h2]

end Benchmarker

namespace HybridSearch

lemma sortByScoreDesc_perm (l : List (ℕ × ℚ)) :
    List.Perm (sortByScoreDesc l) l :=
  List.perm_insertionSort _ l

lemma mem_sortByScoreDesc {p : ℕ × ℚ} {l : List (ℕ × ℚ)} :
    p ∈ sortByScoreDesc l ↔ p ∈ l :=
  (sortByScoreDesc_perm l).mem_iff

lemma length_sortByScoreDesc (l : List (ℕ × ℚ)) :
    (sortByScoreDesc l).length = l.length :=
  (sortByScoreDesc_perm l).length_eq

lemma sorted_sortByScoreDesc (l : List (ℕ × ℚ)) :
    (sortByScoreDesc l).Sorted fun a b => b.2 ≤ a.2 := by
  haveI : IsTotal (ℕ × ℚ) fun a b => b.2 ≤ a.2 := ⟨fun a b => le_total b.2 a.2⟩
  haveI : IsTrans (ℕ × ℚ) fun a b => b.2 ≤ a.2 :=
    ⟨fun _ _ _ h1 h2 => le_trans h2 h1⟩
  exact List.sorted_insertionSort _ l

lemma dictSet_cons_eq {k k' : ℕ} {v v' : ℚ} {rest : List (ℕ × ℚ)}
    (h : k' = k) : dictSet ((k', v') :: rest) k v = (k, v) :: rest := by
  simp [dictSet, h]

lemma dictSet_cons_ne {k k' : ℕ} {v v' : ℚ} {rest : List (ℕ × ℚ)}
    (h : k' ≠ k) :
    dictSet ((k', v') :: rest) k v = (k', v') :: dictSet rest k v := by
  simp [dictSet, h]

lemma mem_keys_dictSet {d : List (ℕ × ℚ)} {k i : ℕ} {v : ℚ} :
    i ∈ (dictSet d k v).map Prod.fst ↔ i ∈ d.map Prod.fst ∨ i = k := by
  induction d with
  | nil => simp [dictSet]
  | cons p rest ih =>
    obtain ⟨k', v'⟩ := p
    by_cases h : k' = k
    · subst h
      simp [dictSet, or_comm, or_assoc]
    · simp only [dictSet, if_neg h, List.map_cons, List.mem_cons, ih, or_assoc]

lemma keys_dictSet (d : List (ℕ × ℚ)) (k : ℕ) (v : ℚ) :
    (dictSet d k v).map Prod.fst =
      if k ∈ d.map Prod.fst then d.map Prod.fst
      else d.map Prod.fst ++ [k] := by
  induction d with
  | nil => simp [dictSet]
  | cons p rest ih =>
    obtain ⟨k', v'⟩ := p
    by_cases h : k' = k
    · subst h
      simp [dictSet]
    · have h' : ¬(k = k') := fun hh => h hh.symm
      simp only [dictSet, if_neg h, List.map_cons, ih, List.mem_cons, h',
        false_or]
      by_cases hk : k ∈ rest.map Prod.fst <;> simp [hk]

lemma nodupKeys_dictSet {d : List (ℕ × ℚ)} {k : ℕ} {v : ℚ}
    (hd : (d.map Prod.fst).Nodup) : ((dictSet d k v).map Prod.fst).Nodup := by
  rw [keys_dictSet]
  by_cases hk : k ∈ d.map Prod.fst
  · simpa [hk] using hd
  · simpa [hk, List.nodup_append] using hd

lemma mem_dictSet_val {d : List (ℕ × ℚ)} {k : ℕ} {v : ℚ} {p : ℕ × ℚ}
    (hp : p ∈ dictSet d k v) : p = (k, v) ∨ p ∈ d := by
  induction d with
  | nil => simpa [dictSet] using hp
  | cons q rest ih =>
    obtain ⟨k', v'⟩ := q
    by_cases h : k' = k
    · subst h
      rw [dictSet_cons_eq rfl] at hp
      rcases List.mem_cons.mp hp with h1 | h1
      · exact Or.inl h1
      · exact Or.inr (List.mem_cons_of_mem _ h1)
    · rw [dictSet_cons_ne h] at hp
      rcases List.mem_cons.mp hp with h1 | h1
      · exact Or.inr (h1 ▸ List.mem_cons_self _ _)
      · rcases ih h1 with h2 | h2
        · exact Or.inl h2
        · exact Or.inr (List.mem_cons_of_mem _ h2)

lemma mem_dictSet_nodup {d : List (ℕ × ℚ)} {k : ℕ} {v : ℚ} {p : ℕ × ℚ}
    (hd : (d.map Prod.fst).Nodup) :
    p ∈ dictSet d k v ↔ p = (k, v) ∨ (p ∈ d ∧ p.1 ≠ k) := by
  induction d with
  | nil => simp [dictSet]
  | cons q rest ih =>
    obtain ⟨k', v'⟩ := q
    have hrest : (rest.map Prod.fst).Nodup := (List.nodup_cons.mp hd).2
    have hknotin : k' ∉ rest.map Prod.fst := (List.nodup_cons.mp hd).1
    by_cases h : k' = k
    · subst h
      rw [dictSet_cons_eq rfl]
      simp only [List.mem_cons]
      constructor
      · rintro (h1 | h1)
        · exact Or.inl h1
        · refine Or.inr ⟨Or.inr h1, ?_⟩
          intro hk
          exact hknotin (hk ▸ List.mem_map_of_mem Prod.fst h1)
      · rintro (h1 | ⟨h1 | h1, h2⟩)
        · exact Or.inl h1
        · exact absurd (by rw [h1]) h2
        · exact Or.inr h1
    · rw [dictSet_cons_ne h]
      simp only [List.mem_cons, ih hrest]
      constructor
      · rintro (h1 | h1 | ⟨h1, h2⟩)
        · refine Or.inr ⟨Or.inl h1, ?_⟩
          intro hk
          exact h (by simpa [h1] using hk)
        · exact Or.inl h1
        · exact Or.inr ⟨Or.inr h1, h2⟩
      · rintro (h1 | ⟨h1 | h1, h2⟩)
        · exact Or.inr (Or.inl h1)
        · exact Or.inl h1
        · exact Or.inr (Or.inr ⟨h1, h2⟩)

lemma dictGet?_mem {d : List (ℕ × ℚ)} {k : ℕ} {v : ℚ}
    (h : dictGet? d k = some v) : (k, v) ∈ d := by
  induction d with
  | nil => simp [dictGet?] at h
  | cons q rest ih =>
    obtain ⟨k', v'⟩ := q
    by_cases hk : k' = k
    · subst hk
      have : v' = v := by simpa [dictGet?] using h
      exact this ▸ List.mem_cons_self _ _
    · exact List.mem_cons_of_mem _ (ih (by simpa [dictGet?, hk] using h))

lemma dictGet?_eq_none {d : List (ℕ × ℚ)} {k : ℕ} :
    dictGet? d k = none ↔ k ∉ d.map Prod.fst := by
  induction d with
  | nil => simp [dictGet?]
  | cons q rest ih =>
    obtain ⟨k', v'⟩ := q
    by_cases hk : k' = k
    · subst hk
      simp [dictGet?]
    · simp only [dictGet?, if_neg hk, ih, List.map_cons, List.mem_cons]
      constructor
      · intro h1
        rintro (h2 | h2)
        · exact hk h2.symm
        · exact h1 h2
      · intro h1 h2
        exact h1 (Or.inr h2)

lemma mem_keys_weightedSemPass {w : ℚ} {i : ℕ} :
    ∀ (l d : List (ℕ × ℚ)),
      i ∈ (weightedSemPass w d l).map Prod.fst ↔
        i ∈ d.map Prod.fst ∨ i ∈ l.map Prod.fst
  | [], d => by simp [weightedSemPass]
  | (idx, s) :: rest, d => by
    rw [weightedSemPass, mem_keys_weightedSemPass rest, mem_keys_dictSet]
    simp only [List.map_cons, List.mem_cons]
    tauto

lemma mem_keys_weightedKwPass {w maxK : ℚ} {i : ℕ} :
    ∀ (l d : List (ℕ × ℚ)),
      i ∈ (weightedKwPass w maxK d l).map Prod.fst ↔
        i ∈ d.map Prod.fst ∨ i ∈ l.map Prod.fst
  | [], d => by simp [weightedKwPass]
  | (idx, s) :: rest, d => by
    rw [weightedKwPass]
    cases hg : dictGet? d idx <;>
      · simp only [hg]
        rw [mem_keys_weightedKwPass rest, mem_keys_dictSet]
        simp only [List.map_cons, List.mem_cons]
        tauto

lemma mem_keys_rrfSemPass {k i : ℕ} :
    ∀ (l : List (ℕ × ℚ)) (rank : ℕ) (d : List (ℕ × ℚ)),
      i ∈ (rrfSemPass k rank d l).map Prod.fst ↔
        i ∈ d.map Prod.fst ∨ i ∈ l.map Prod.fst
  | [], _, d => by simp [rrfSemPass]
  | (idx, s) :: rest, rank, d => by
    rw [rrfSemPass, mem_keys_rrfSemPass rest, mem_keys_dictSet]
    simp only [List.map_cons, List.mem_cons]
    tauto

lemma mem_keys_rrfKwPass {k i : ℕ} :
    ∀ (l : List (ℕ × ℚ)) (rank : ℕ) (d : List (ℕ × ℚ)),
      i ∈ (rrfKwPass k rank d l).map Prod.fst ↔
        i ∈ d.map Prod.fst ∨ i ∈ l.map Prod.fst
  | [], _, d => by simp [rrfKwPass]
  | (idx, s) :: rest, rank, d => by
    rw [rrfKwPass]
    cases hg : dictGet? d idx <;>
      · simp only [hg]
        rw [mem_keys_rrfKwPass rest, mem_keys_dictSet]
        simp only [List.map_cons, List.mem_cons]
        tauto

lemma mem_keys_dictOfListAux {i : ℕ} :
    ∀ (l d : List (ℕ × ℚ)),
      i ∈ (dictOfListAux d l).map Prod.fst ↔
        i ∈ d.map Prod.fst ∨ i ∈ l.map Prod.fst
  | [], d => by simp [dictOfListAux]
  | (idx, v) :: rest, d => by
    rw [dictOfListAux, mem_keys_dictOfListAux rest, mem_keys_dictSet]
    simp only [List.map_cons, List.mem_cons]
    tauto

lemma mem_keys_dictOfList {i : ℕ} {l : List (ℕ × ℚ)} :
    i ∈ (dictOfList l).map Prod.fst ↔ i ∈ l.map Prod.fst := by
  rw [dictOfList, mem_keys_dictOfListAux]
  simp

lemma rrfContribution_pos {k rank : ℕ} (h : 1 ≤ rank) :
    0 < 1 / ((k : ℚ) + rank) := by
  have : (0 : ℚ) < (k : ℚ) + rank := by
    have : (1 : ℚ) ≤ (rank : ℚ) := by exact_mod_cast h
    have hk : (0 : ℚ) ≤ (k : ℚ) := Nat.cast_nonneg k
    linarith
  positivity

lemma rrfContribution_le {k rank : ℕ} (h : 1 ≤ rank) :
    1 / ((k : ℚ) + rank) ≤ 1 / ((k : ℚ) + 1) := by
  have h1 : (0 : ℚ) < (k : ℚ) + 1 := by positivity
  have h2 : ((k : ℚ) + 1) ≤ (k : ℚ) + rank := by
    have : (1 : ℚ) ≤ (rank : ℚ) := by exact_mod_cast h
    linarith
  exact one_div_le_one_div_of_le h1 h2

lemma nodupKeys_rrfSemPass {k : ℕ} :
    ∀ (l : List (ℕ × ℚ)) (rank : ℕ) (d : List (ℕ × ℚ)),
      (d.map Prod.fst).Nodup → ((rrfSemPass k rank d l).map Prod.fst).Nodup
  | [], _, d, hd => hd
  | (idx, s) :: rest, rank, d, hd =>
    nodupKeys_rrfSemPass rest (rank + 1) _ (nodupKeys_dictSet hd)

lemma rrfSemPass_bound {k : ℕ} :
    ∀ (l : List (ℕ × ℚ)) (rank : ℕ) (d : List (ℕ × ℚ)), 1 ≤ rank →
      (∀ p ∈ d, 0 < p.2 ∧ p.2 ≤ 1 / ((k : ℚ) + 1)) →
      ∀ p ∈ rrfSemPass k rank d l, 0 < p.2 ∧ p.2 ≤ 1 / ((k : ℚ) + 1)
  | [], _, d, _, hd, p, hp => hd p hp
  | (idx, s) :: rest, rank, d, hrank, hd, p, hp => by
    refine rrfSemPass_bound rest (rank + 1) _ (le_trans hrank (by omega)) ?_ p hp
    intro q hq
    rcases mem_dictSet_val hq with h1 | h1
    · subst h1
      exact ⟨rrfContribution_pos hrank, rrfContribution_le hrank⟩
    · exact hd q h1

lemma rrfKwPass_bound {k : ℕ} :
    ∀ (l : List (ℕ × ℚ)) (rank : ℕ) (d : List (ℕ × ℚ)),
      (l.map Prod.fst).Nodup → 1 ≤ rank → (d.map Prod.fst).Nodup →
      (∀ p ∈ d, 0 < p.2 ∧ p.2 ≤ 1 / ((k : ℚ) + 1) + 1 / ((k : ℚ) + 1)) →
      (∀ p ∈ d, p.1 ∈ l.map Prod.fst → p.2 ≤ 1 / ((k : ℚ) + 1)) →
      ∀ p ∈ rrfKwPass k rank d l,
        0 < p.2 ∧ p.2 ≤ 1 / ((k : ℚ) + 1) + 1 / ((k : ℚ) + 1)
  | [], _, d, _, _, _, hbound, _, p, hp => hbound p hp
  | (j, s) :: rest, rank, d, hl, hrank, hdnodup, hbound, hfresh, p, hp => by
    have hl' : j ∉ rest.map Prod.fst ∧ (rest.map Prod.fst).Nodup := by
      rw [List.map_cons, List.nodup_cons] at hl
      exact hl
    have hjrest : j ∉ rest.map Prod.fst := hl'.1
    have hrestnodup : (rest.map Prod.fst).Nodup := hl'.2
    have hcpos := @rrfContribution_pos k rank hrank
    have hcle := @rrfContribution_le k rank hrank
    rw [rrfKwPass] at hp
    rcases hg : dictGet? d j with _ | old
    all_goals rw [hg] at hp
    · -- key absent: a fresh entry with a single contribution
      refine rrfKwPass_bound rest (rank + 1) _ hrestnodup
        (le_trans hrank (by omega)) (nodupKeys_dictSet hdnodup) ?_ ?_ p hp
      · intro q hq
        rcases mem_dictSet_val hq with h1 | h1
        · subst h1
          constructor
          · exact hcpos
          · calc 1 / ((k : ℚ) + rank) ≤ 1 / ((k : ℚ) + 1) := hcle
              _ ≤ 1 / ((k : ℚ) + 1) + 1 / ((k : ℚ) + 1) := by
                  have := @rrfContribution_pos k 1 le_rfl
                  push_cast at this ⊢
                  linarith
        · exact hbound q h1
      · intro q hq hqrest
        rcases (mem_dictSet_nodup hdnodup).mp hq with h1 | ⟨h1, h2⟩
        · rw [h1] at hqrest
          exact absurd hqrest hjrest
        · exact hfresh q h1 (List.mem_cons_of_mem _ (by simpa using hqrest))
    · -- key present: its old value has received no keyword contribution yet
      have hold_mem : (j, old) ∈ d := dictGet?_mem hg
      have hold_fresh : old ≤ 1 / ((k : ℚ) + 1) :=
        hfresh (j, old) hold_mem (by simp)
      have hold_pos : 0 < old := (hbound (j, old) hold_mem).1
      refine rrfKwPass_bound rest (rank + 1) _ hrestnodup
        (le_trans hrank (by omega)) (nodupKeys_dictSet hdnodup) ?_ ?_ p hp
      · intro q hq
        rcases mem_dictSet_val hq with h1 | h1
        · subst h1
          refine ⟨by positivity, ?_⟩
          have : 1 / ((k : ℚ) + rank) ≤ 1 / ((k : ℚ) + 1) := hcle
          simp only
          linarith
        · exact hbound q h1
      · intro q hq hqrest
        rcases (mem_dictSet_nodup hdnodup).mp hq with h1 | ⟨h1, h2⟩
        · rw [h1] at hqrest
          exact absurd hqrest hjrest
        · exact hfresh q h1 (List.mem_cons_of_mem _ (by simpa using hqrest))

/-- The fused list formatted into `SearchResult`s with no filtering and no
truncation, in fused order; out-of-range indices are skipped.  The
reference against which filtering is shown to be order-preserving. -/
def formatAll (items : List (List (String × String))) :
    List (ℕ × ℚ) → List SearchResult :=
  List.filterMap fun p => (items.get? p.1).map (mkSearchResult p.1 p.2)

/-- Effective result budget of the collection loop in `search`: the break
condition `len(results) >= top_k` is only checked after an append, so any
`top_k ≤ 1` (including 0 and negatives) stops after one appended result. -/
def effNeed (need : ℤ) : ℕ :=
  if need ≤ 1 then 1 else need.toNat

lemma effNeed_succ {need : ℤ} (h : ¬need ≤ 1) (m : ℕ) :
    min (effNeed (need - 1)) m + 1 = min (effNeed need) (m + 1) := by
  simp only [effNeed]
  split_ifs <;> omega

lemma searchLoop_none_length {items : List (List (String × String))} :
    ∀ (fused : List (ℕ × ℚ)) (need : ℤ) (rs : List SearchResult),
      searchLoop items none need fused = .ok rs →
      rs.length = min (effNeed need) fused.length
  | [], need, rs, h => by
    simp only [searchLoop] at h
    cases h
    simp
  | (idx, score) :: rest, need, rs, h => by
    rw [searchLoop] at h
    split at h
    · cases h
    next item hget =>
      split at h
      next hm =>
        split at h
        next hneed =>
          cases h
          simp [effNeed, hneed]
        next hneed =>
          split at h
          next e hrec => cases h
          next results hrec =>
            cases h
            have hlen := searchLoop_none_length rest (need - 1) results hrec
            simp only [List.length_cons]
            rw [← effNeed_succ hneed rest.length, hlen]
      next hm => exact absurd rfl hm

lemma searchLoop_length_le {items : List (List (String × String))}
    {filters : Option (List (String × String))} :
    ∀ (fused : List (ℕ × ℚ)) (need : ℤ) (rs : List SearchResult),
      searchLoop items filters need fused = .ok rs →
      rs.length ≤ min (effNeed need) fused.length
  | [], need, rs, h => by
    simp only [searchLoop] at h
    cases h
    simp
  | (idx, score) :: rest, need, rs, h => by
    rw [searchLoop] at h
    split at h
    · cases h
    next item hget =>
      split at h
      next hm =>
        split at h
        next hneed =>
          cases h
          simp [effNeed, hneed]
        next hneed =>
          split at h
          next e hrec => cases h
          next results hrec =>
            cases h
            have hle := searchLoop_length_le rest (need - 1) results hrec
            simp only [List.length_cons]
            rw [← effNeed_succ hneed rest.length]
            omega
      next hm =>
        have hle := searchLoop_length_le rest need rs h
        simp only [List.length_cons]
        omega

lemma searchLoop_sublist {items : List (List (String × String))}
    {filters : Option (List (String × String))} :
    ∀ (fused : List (ℕ × ℚ)) (need : ℤ) (rs : List SearchResult),
      searchLoop items filters need fused = .ok rs →
      rs.Sublist (formatAll items fused)
  | [], need, rs, h => by
    simp only [searchLoop] at h
    cases h
    simp [formatAll]
  | (idx, score) :: rest, need, rs, h => by
    rw [searchLoop] at h
    split at h
    · cases h
    next item hget =>
      have hget' : items[idx]? = some item := by
        rw [← List.get?_eq_getElem?]
        exact hget
      have hfa : formatAll items ((idx, score) :: rest) =
          mkSearchResult idx score item :: formatAll items rest := by
        simp [formatAll, hget']
      split at h
      next hm =>
        split at h
        next hneed =>
          cases h
          rw [hfa]
          exact List.cons_sublist_cons.mpr (List.nil_sublist _)
        next hneed =>
          split at h
          next e hrec => cases h
          next results hrec =>
            cases h
            rw [hfa]
            exact List.cons_sublist_cons.mpr
              (searchLoop_sublist rest (need - 1) results hrec)
      next hm =>
        rw [hfa]
        exact (searchLoop_sublist rest need rs h).cons _

lemma getD_of_all_zero {l : List ℚ} (hl : ∀ x ∈ l, x = 0) :
    ∀ i, l.getD i 0 = 0 := by
  induction l with
  | nil => intro i; simp
  | cons x xs ih =>
    intro i
    cases i with
    | zero => simpa using hl x (List.mem_cons_self _ _)
    | succ n =>
      simpa using ih (fun y hy => hl y (List.mem_cons_of_mem _ hy)) n

end HybridSearch

namespace Benchmarker

lemma mem_zip_self {α : Type} {p : α × α} :
    ∀ {l : List α}, p ∈ l.zip l → p.1 = p.2 := by
  intro l
  induction l with
  | nil => simp
  | cons x xs ih =>
    intro hp
    rcases List.mem_cons.mp (by simpa [List.zip_cons_cons] using hp) with h | h
    · rw [h]
    · exact ih h

lemma sum_of_all_one {l : List ℚ} (hl : ∀ x ∈ l, x = 1) :
    l.sum = l.length := by
  induction l with
  | nil => simp
  | cons x xs ih =>
    have hx : x = 1 := hl x (List.mem_cons_self _ _)
    have : xs.sum = xs.length := ih fun y hy => hl y (List.mem_cons_of_mem _ hy)
    simp [hx, this]
    ring

lemma pyMean_of_all_one {l : List ℚ} (hne : l ≠ []) (hl : ∀ x ∈ l, x = 1) :
    pyMean l = 1 := by
  have hlen : (l.length : ℚ) ≠ 0 := by
    have : l.length ≠ 0 := fun h => hne (List.length_eq_zero.mp h)
    exact_mod_cast this
  rw [pyMean, sum_of_all_one hl, div_self hlen]

lemma ivfInner_ok {α : Type} {runCombo : ℕ → ℕ → Except String α} {nlist : ℕ} :
    ∀ {nprobes : List ℕ} {rs : List α},
      ivfInner runCombo nlist nprobes = .ok rs →
      (∀ np ∈ nprobes, ∃ r, runCombo nlist np = .ok r) ∧
        rs.length = nprobes.length := by
  intro nprobes
  induction nprobes with
  | nil =>
    intro rs h
    cases (by simpa [ivfInner] using h : [] = rs)
    simp
  | cons np rest ih =>
    intro rs h
    rw [ivfInner] at h
    cases hrun : runCombo nlist np with
    | error e => rw [hrun] at h; cases h
    | ok r =>
      rw [hrun] at h
      cases hrec : ivfInner runCombo nlist rest with
      | error e => rw [hrec] at h; cases h
      | ok more =>
        rw [hrec] at h
        cases h
        obtain ⟨hall, hlen⟩ := ih hrec
        refine ⟨?_, by simp [hlen]⟩
        intro np' hnp'
        rcases List.mem_cons.mp hnp' with h1 | h1
        · exact ⟨r, h1 ▸ hrun⟩
        · exact hall np' h1

lemma benchmark_ivf_ok {α : Type} {runCombo : ℕ → ℕ → Except String α} :
    ∀ {nlists : List ℕ} {nprobes : List ℕ} {rs : List α},
      benchmark_ivf runCombo nlists nprobes = .ok rs →
      (∀ nl ∈ nlists, ∀ np ∈ nprobes, ∃ r, runCombo nl np = .ok r) ∧
        rs.length = nlists.length * nprobes.length := by
  intro nlists
  induction nlists with
  | nil =>
    intro nprobes rs h
    cases (by simpa [benchmark_ivf] using h : [] = rs)
    simp
  | cons nl rest ih =>
    intro nprobes rs h
    rw [benchmark_ivf] at h
    cases hinner : ivfInner runCombo nl nprobes with
    | error e => rw [hinner] at h; cases h
    | ok first =>
      rw [hinner] at h
      cases hrec : benchmark_ivf runCombo rest nprobes with
      | error e => rw [hrec] at h; cases h
      | ok more =>
        rw [hrec] at h
        cases h
        obtain ⟨hall1, hlen1⟩ := ivfInner_ok hinner
        obtain ⟨hall2, hlen2⟩ := ih hrec
        constructor
        · intro nl' hnl' np hnp
          rcases List.mem_cons.mp hnl' with h1 | h1
          · exact h1 ▸ hall1 np hnp
          · exact hall2 nl' h1 np hnp
        · simp [hlen1, hlen2]
          ring

end Benchmarker

namespace HybridSearch

/-- C1: the claim asserts that ties in fused score are ordered by ascending
item index.  They are not: Python's stable `sorted` keeps the score-dict
insertion order, which places semantic-pass entries before keyword-only
entries.  With semantic candidate 5 and keyword candidate 3, RRF gives both
the identical score `1/61`, yet index 5 precedes index 3 — not ascending. -/
theorem C1_counterexample :
    (fuse_rrf [(5, 1)] [(3, 1)] 60).map Prod.snd = [1/61, 1/61] ∧
    (fuse_rrf [(5, 1)] [(3, 1)] 60).map Prod.fst = [5, 3] ∧
    ¬(5 : ℕ) < 3 := by
  have h : fuse_rrf [(5, 1)] [(3, 1)] 60 = [(5, 1/61), (3, 1/61)] := by
    norm_num [fuse_rrf, rrfSemPass, rrfKwPass, dictSet, dictGet?,
      sortByScoreDesc, List.insertionSort, List.orderedInsert]
  exact ⟨by rw [h]; rfl, by rw [h]; rfl, by omega⟩

/-- C1 (amended): for every pair of candidate lists, each of the three
fusion strategies produces output ordered by non-increasing fused score;
equal-score entries keep the stable sort's input (dict insertion) order,
which is not ascending item_index in general. -/
theorem C1_fused_sorted_desc :
    (∀ (w1 w2 : ℚ) (sem kw : List (ℕ × ℚ)),
        (fuse_weighted w1 w2 sem kw).Sorted fun a b => b.2 ≤ a.2) ∧
    (∀ (sem kw : List (ℕ × ℚ)) (k : ℕ),
        (fuse_rrf sem kw k).Sorted fun a b => b.2 ≤ a.2) ∧
    (∀ sem kw : List (ℕ × ℚ),
        (fuse_combmnz sem kw).Sorted fun a b => b.2 ≤ a.2) :=
  ⟨fun _ _ _ _ => sorted_sortByScoreDesc _,
   fun _ _ _ => sorted_sortByScoreDesc _,
   fun _ _ => sorted_sortByScoreDesc _⟩

/-- C10: for each fusion strategy, the fused output mentions exactly the
item indexes present in at least one input candidate list — fusion never
drops a candidate and never invents one. -/
theorem C10_fused_index_union :
    (∀ (w1 w2 : ℚ) (sem kw : List (ℕ × ℚ)) (i : ℕ),
        i ∈ (fuse_weighted w1 w2 sem kw).map Prod.fst ↔
          i ∈ sem.map Prod.fst ∨ i ∈ kw.map Prod.fst) ∧
    (∀ (sem kw : List (ℕ × ℚ)) (k : ℕ) (i : ℕ),
        i ∈ (fuse_rrf sem kw k).map Prod.fst ↔
          i ∈ sem.map Prod.fst ∨ i ∈ kw.map Prod.fst) ∧
    (∀ (sem kw : List (ℕ × ℚ)) (i : ℕ),
        i ∈ (fuse_combmnz sem kw).map Prod.fst ↔
          i ∈ sem.map Prod.fst ∨ i ∈ kw.map Prod.fst) := by
  refine ⟨?_, ?_, ?_⟩
  · intro w1 w2 sem kw i
    simp only [fuse_weighted]
    rw [List.Perm.mem_iff ((sortByScoreDesc_perm _).map Prod.fst)]
    rw [mem_keys_weightedKwPass, mem_keys_weightedSemPass]
    simp
  · intro sem kw k i
    simp only [fuse_rrf]
    rw [List.Perm.mem_iff ((sortByScoreDesc_perm _).map Prod.fst)]
    rw [mem_keys_rrfKwPass, mem_keys_rrfSemPass]
    simp
  · intro sem kw i
    simp only [fuse_combmnz]
    rw [List.Perm.mem_iff ((sortByScoreDesc_perm _).map Prod.fst)]
    rw [List.map_map]
    have hid : (Prod.fst ∘ fun idx =>
        (idx, (combmnzEntry (dictOfList sem) (dictOfList kw)
          (pyMax ((dictOfList kw).map Prod.snd)) idx).1 *
          (combmnzEntry (dictOfList sem) (dictOfList kw)
            (pyMax ((dictOfList kw).map Prod.snd)) idx).2)) = id := rfl
    rw [hid, List.map_id]
    simp only [allIndices, List.mem_dedup, List.mem_append]
    rw [mem_keys_dictOfList, mem_keys_dictOfList]

/-- C8: for any two candidate lists whose keyword list carries no duplicate
item index (always true of retrieval output, which ranks distinct
documents), every RRF fused score lies in the interval
`(0, 1/(k+1) + 1/(k+1)]`: each list contributes `1/(k + rank)` with
`rank ≥ 1`, assignment semantics cap the semantic pass at `1/(k+1)`, and
each keyword index is incremented at most once. -/
theorem C8_rrf_bounded (k : ℕ) (sem kw : List (ℕ × ℚ))
    (hkw : (kw.map Prod.fst).Nodup) :
    ∀ p ∈ fuse_rrf sem kw k,
      0 < p.2 ∧ p.2 ≤ 1 / ((k : ℚ) + 1) + 1 / ((k : ℚ) + 1) := by
  intro p hp
  have hsem : ∀ q ∈ rrfSemPass k 1 [] sem, 0 < q.2 ∧ q.2 ≤ 1 / ((k : ℚ) + 1) :=
    rrfSemPass_bound sem 1 [] le_rfl (by simp)
  have hipos : (0 : ℚ) < 1 / ((k : ℚ) + 1) :=
    @rrfContribution_pos k 1 le_rfl
  refine rrfKwPass_bound kw 1 _ hkw le_rfl
    (nodupKeys_rrfSemPass sem 1 [] (by simp)) ?_ ?_ p
    (mem_sortByScoreDesc.mp hp)
  · intro q hq
    refine ⟨(hsem q hq).1, le_trans (hsem q hq).2 ?_⟩
    simp only [Nat.cast_one] at hipos ⊢
    linarith
  · intro q hq _
    exact (hsem q hq).2

/-- C8 witness: with semantic list `[(0, 1)]`, keyword list `[(1, 1)]` and
the default `k = 60`, the fused score of item 0 is `1/61`, which lies in
`(0, 2/61]`. -/
theorem C8_rrf_bounded_witness :
    0 < (1 : ℚ) / (60 + 1) ∧
      (1 : ℚ) / (60 + 1) ≤ 1 / (60 + 1) + 1 / (60 + 1) := by
  have hmem : ((0 : ℕ), (1 : ℚ) / (60 + 1)) ∈ fuse_rrf [(0, 1)] [(1, 1)] 60 := by
    simp [fuse_rrf, rrfSemPass, rrfKwPass, dictSet, dictGet?, sortByScoreDesc,
      List.insertionSort, List.orderedInsert]
  have h := C8_rrf_bounded 60 [(0, 1)] [(1, 1)] (by decide)
    ((0 : ℕ), (1 : ℚ) / (60 + 1)) hmem
  simpa using h

/-- C2: the claim says the lexical query result contains only documents
sharing a token with the query and that an empty query yields an empty
list.  The code instead ranks every document: `np.argsort(scores)[::-1]`
keeps zero-score documents.  Corpus `[["a"], ["b"]]` with query `"a"` and
`top_k = 2` returns document 1 with score 0 although it shares no token
with the query. -/
theorem C2_counterexample :
    keyword_search_core [["a"], ["b"]] "a" 2 = [(0, 1), (1, 0)] ∧
    tokenize "a" = ["a"] ∧ ("a" : String) ∉ (["b"] : List String) := by
  refine ⟨?_, by decide, by decide⟩
  have h : tokenize "a" = ["a"] := by decide
  norm_num [keyword_search_core, bm25_get_scores, h, argsortDesc,
    sortByScoreDesc, List.insertionSort, List.orderedInsert, List.enum,
    List.enumFrom, List.count, List.countP, List.countP.go]
  decide

/-- C2 (amended): the lexical query always returns the `top_k`
highest-scoring documents out of the whole corpus — `min top_k n` of them —
including zero-overlap documents with score 0; an empty (or all-stopword,
there being no stopword handling) query tokenizes to `[]`, scores every
document 0, and returns `min top_k n` zero-scored documents rather than an
empty list, and no error is raised. -/
theorem C2_keyword_dense_semantics :
    (∀ (corpus : List (List String)) (q : String) (top_k : ℕ),
        (keyword_search_core corpus q top_k).length = min top_k corpus.length) ∧
    tokenize "" = [] ∧
    (∀ (corpus : List (List String)) (top_k : ℕ),
        ∀ p ∈ keyword_search_core corpus "" top_k, p.2 = 0) := by
  refine ⟨?_, by decide, ?_⟩
  · intro corpus q top_k
    simp only [keyword_search_core, List.length_map, List.length_take,
      argsortDesc, length_sortByScoreDesc, List.enum_length]
    simp [bm25_get_scores]
  · intro corpus top_k p hp
    have hz : ∀ x ∈ bm25_get_scores corpus (tokenize ""), x = 0 := by
      intro x hx
      have ht : tokenize "" = [] := by decide
      rw [ht] at hx
      rcases List.mem_map.mp hx with ⟨doc, _, hdoc⟩
      simpa using hdoc.symm
    simp only [keyword_search_core] at hp
    rcases List.mem_map.mp hp with ⟨idx, _, hpair⟩
    rw [← hpair]
    exact getD_of_all_zero hz idx

/-- C2 witness: a two-document corpus with `top_k = 5` returns
`min 5 2 = 2` candidates, and on a one-document corpus the empty query
returns document 0 with score 0. -/
theorem C2_keyword_dense_semantics_witness :
    (keyword_search_core [["a"], ["b"]] "query" 5).length = min 5 2 ∧
    ((0 : ℕ), (0 : ℚ)).2 = 0 := by
  refine ⟨C2_keyword_dense_semantics.1 [["a"], ["b"]] "query" 5, ?_⟩
  have hmem : ((0 : ℕ), (0 : ℚ)) ∈ keyword_search_core [["a"]] "" 3 := by
    have h : keyword_search_core [["a"]] "" 3 = [(0, 0)] := rfl
    rw [h]
    exact List.mem_singleton.mpr rfl
  exact C2_keyword_dense_semantics.2.2 [["a"]] 3 ((0 : ℕ), (0 : ℚ)) hmem

/-- Engine state immediately after `__init__`: `add_items` has not run,
both index fields are `None` and the item store is empty. -/
def freshEngine : HybridSearchEngine :=
  ⟨"weighted", 7/10, 3/10, [], none, none⟩

/-- A one-item indexed engine whose semantic index ranks document 0 at
score 1 for every query. -/
def tinyEngine : HybridSearchEngine :=
  ⟨"weighted", 7/10, 3/10, [[("text", "alpha")]],
    some fun _ => [(0, 1)], some [["alpha"]]⟩

/-- A freshly constructed engine configured with a misspelt fusion
strategy and nothing indexed. -/
def badStrategyEngine : HybridSearchEngine :=
  ⟨"cosine", 7/10, 3/10, [], none, none⟩

/-- An indexed engine configured with an unknown fusion strategy. -/
def badStrategyIndexed : HybridSearchEngine :=
  ⟨"cosine", 7/10, 3/10, [[("text", "alpha")]],
    some fun _ => [(0, 1)], some [["alpha"]]⟩

/-- C3: the claim names a dedicated `NotIndexed` error.  No such error
exists in the code: searching an unindexed engine dereferences
`self.vector_index = None` and dies with the unhandled Python
`AttributeError`, modelled as `noneTypeError`, which is a different error
than the spec's `notIndexed`. -/
theorem C3_counterexample :
    search freshEngine "deep learning" 10 none 100 =
      .error .noneTypeError ∧
    SearchError.noneTypeError ≠ SearchError.notIndexed :=
  ⟨rfl, by decide⟩

/-- C3 (amended): calling `search` before the corpus has been indexed
does fail rather than silently returning an empty list — but with the
unhandled None-attribute error from `self.vector_index.search`, not with
a dedicated `NotIndexed` error. -/
theorem C3_unindexed_raises (e : HybridSearchEngine) (q : String) (tk : ℤ)
    (fl : Option (List (String × String))) (stk : ℕ)
    (h : e.vector_index = none) :
    search e q tk fl stk = .error .noneTypeError := by
  simp [search, semantic_search, h]

/-- C3 witness: the fresh engine concretely fails with the None-access
error. -/
theorem C3_unindexed_raises_witness :
    search freshEngine "neural networks" 10 none 100 =
      .error .noneTypeError :=
  C3_unindexed_raises freshEngine "neural networks" 10 none 100 rfl

/-- C4: the claim says every invalid parameter is rejected at the API
boundary before any index work.  A negative `top_k` is never rejected:
the break bound `len(results) >= top_k` is vacuously reached after the
first append, so `search` succeeds and returns one result. -/
theorem C4_counterexample :
    search tinyEngine "alpha" (-1) none 100 =
      .ok [⟨"0", "alpha", 1, []⟩] ∧ (-1 : ℤ) < 0 := by
  refine ⟨?_, by omega⟩
  have hkwcore : keyword_search_core [["alpha"]] "alpha" 100 = [(0, 1)] := by
    have ht : tokenize "alpha" = ["alpha"] := by decide
    norm_num [keyword_search_core, bm25_get_scores, ht, argsortDesc,
      sortByScoreDesc, List.insertionSort, List.orderedInsert, List.enum,
      List.enumFrom, List.count, List.countP, List.countP.go]
  have hfuse : fuse_weighted (7/10) (3/10) [(0, 1)] [(0, 1)] = [(0, 1)] := by
    norm_num [fuse_weighted, weightedSemPass, weightedKwPass, pyMax, dictSet,
      dictGet?, sortByScoreDesc, List.insertionSort, List.orderedInsert]
  have hm : search tinyEngine "alpha" (-1) none 100 =
      searchLoop tinyEngine.items none (-1)
        (fuse_weighted (7/10) (3/10) [(0, 1)] [(0, 1)]) := by
    show (match semantic_search tinyEngine "alpha" 100 with
      | Except.error err => Except.error err
      | Except.ok semantic_results =>
        match keyword_search tinyEngine "alpha" 100 with
        | Except.error err => Except.error err
        | Except.ok keyword_results =>
          if tinyEngine.fusion_strategy = "weighted" then
            searchLoop tinyEngine.items none (-1)
              (fuse_weighted tinyEngine.semantic_weight
                tinyEngine.keyword_weight semantic_results keyword_results)
          else if tinyEngine.fusion_strategy = "rrf" then
            searchLoop tinyEngine.items none (-1)
              (fuse_rrf semantic_results keyword_results 60)
          else if tinyEngine.fusion_strategy = "combmnz" then
            searchLoop tinyEngine.items none (-1)
              (fuse_combmnz semantic_results keyword_results)
          else
            Except.error (SearchError.valueError
              ("Unknown fusion strategy: " ++ tinyEngine.fusion_strategy))) = _
    rw [show keyword_search tinyEngine "alpha" 100 =
      .ok (keyword_search_core [["alpha"]] "alpha" 100) from rfl, hkwcore]
    rfl
  rw [hm, hfuse]
  rfl

/-- C4 (amended): the unknown-strategy check does raise `ValueError`, but
only after both retrievals have run — on an unindexed engine the
None-access failure fires first, so validation is not at the API
boundary — and a negative or zero `top_k` is not rejected at all: the
call succeeds and returns at most one result. -/
theorem C4_validation_not_at_boundary :
    (∀ (e : HybridSearchEngine) (q : String) (tk : ℤ)
        (fl : Option (List (String × String))) (stk : ℕ),
        e.fusion_strategy ≠ "weighted" → e.fusion_strategy ≠ "rrf" →
        e.fusion_strategy ≠ "combmnz" → e.vector_index = none →
        search e q tk fl stk = .error .noneTypeError) ∧
    (∀ (e : HybridSearchEngine) (q : String) (tk : ℤ)
        (fl : Option (List (String × String))) (stk : ℕ)
        (f : String → List (ℕ × ℚ)) (c : List (List String)),
        e.fusion_strategy ≠ "weighted" → e.fusion_strategy ≠ "rrf" →
        e.fusion_strategy ≠ "combmnz" → e.vector_index = some f →
        e.bm25 = some c →
        search e q tk fl stk =
          .error (.valueError
            ("Unknown fusion strategy: " ++ e.fusion_strategy))) ∧
    (∀ (items : List (List (String × String)))
        (fl : Option (List (String × String))) (tk : ℤ)
        (fused : List (ℕ × ℚ)) (rs : List SearchResult),
        tk ≤ 0 → searchLoop items fl tk fused = .ok rs →
        rs.length ≤ 1) := by
  refine ⟨?_, ?_, ?_⟩
  · intro e q tk fl stk _ _ _ h
    simp [search, semantic_search, h]
  · intro e q tk fl stk f c h1 h2 h3 h4 h5
    simp [search, semantic_search, keyword_search, h4, h5, h1, h2, h3]
  · intro items fl tk fused rs htk h
    have hle := searchLoop_length_le fused tk rs h
    have heff : effNeed tk = 1 := by
      simp [effNeed, show tk ≤ 1 by omega]
    rw [heff] at hle
    omega

/-- C4 witness: the three behaviours at concrete inputs — unknown
strategy on an unindexed engine hits the None error, unknown strategy on
an indexed engine hits the late ValueError, and `top_k = -1` still
returns one result. -/
theorem C4_validation_not_at_boundary_witness :
    search badStrategyEngine "q" 10 none 100 = .error .noneTypeError ∧
    search badStrategyIndexed "q" 10 none 100 =
      .error (.valueError "Unknown fusion strategy: cosine") ∧
    ([⟨"0", "alpha", (1 : ℚ), []⟩] : List SearchResult).length ≤ 1 := by
  refine ⟨?_, ?_, ?_⟩
  · exact C4_validation_not_at_boundary.1 badStrategyEngine "q" 10 none 100
      (by decide) (by decide) (by decide) rfl
  · exact C4_validation_not_at_boundary.2.1 badStrategyIndexed "q" 10 none 100
      _ _ (by decide) (by decide) (by decide) rfl rfl
  · have h : searchLoop [[("text", "alpha")]] none (-1) [(0, 1)] =
        .ok [⟨"0", "alpha", (1 : ℚ), []⟩] := rfl
    exact C4_validation_not_at_boundary.2.2 [[("text", "alpha")]] none (-1)
      [(0, 1)] [⟨"0", "alpha", (1 : ℚ), []⟩] (by omega) h

end HybridSearch

namespace HybridSearch

/-- C7: the claim says the CombMNZ multiplier — the count of lists where
the item appears with a nonzero score — is always 1 or 2.  The code counts
strictly positive scores, so an item whose only appearance is a negative
semantic score gets count 0 and fused score 0, where the claim's formula
predicts `(-1 + 0) * 1 = -1`. -/
theorem C7_counterexample :
    fuse_combmnz [(0, -1)] [] = [(0, 0)] ∧ ((-1 : ℚ) + 0) * 1 ≠ 0 := by
  constructor
  · norm_num [fuse_combmnz, dictOfList, dictOfListAux, allIndices,
      combmnzEntry, pyMax, dictSet, dictGet?, sortByScoreDesc,
      List.insertionSort, List.orderedInsert, List.dedup, List.pwFilter]
  · norm_num

/-- C7 (amended): every CombMNZ fused score equals the sum of the item's
normalized per-list scores (lexical divided by the positive max, semantic
as given) multiplied by the count of lists in which the item appears with
a strictly positive normalized score, and that count is 0, 1 or 2 —
count 0 (not in the claim's 1-or-2 range) occurs for items with no
strictly positive contribution. -/
theorem C7_combmnz_score_formula :
    ∀ (sem kw : List (ℕ × ℚ)) (idx : ℕ) (v : ℚ),
      (idx, v) ∈ fuse_combmnz sem kw →
      v = (combmnzEntry (dictOfList sem) (dictOfList kw)
            (pyMax ((dictOfList kw).map Prod.snd)) idx).1 *
          ((combmnzEntry (dictOfList sem) (dictOfList kw)
            (pyMax ((dictOfList kw).map Prod.snd)) idx).2 : ℚ) ∧
      ((combmnzEntry (dictOfList sem) (dictOfList kw)
          (pyMax ((dictOfList kw).map Prod.snd)) idx).2 = 0 ∨
        (combmnzEntry (dictOfList sem) (dictOfList kw)
          (pyMax ((dictOfList kw).map Prod.snd)) idx).2 = 1 ∨
        (combmnzEntry (dictOfList sem) (dictOfList kw)
          (pyMax ((dictOfList kw).map Prod.snd)) idx).2 = 2) := by
  intro sem kw idx v hp
  simp only [fuse_combmnz] at hp
  have hm := mem_sortByScoreDesc.mp hp
  rcases List.mem_map.mp hm with ⟨j, _, hpair⟩
  injection hpair with hj hv
  subst hj
  refine ⟨hv.symm, ?_⟩
  simp only [combmnzEntry]
  split_ifs <;> simp

/-- C7 witness: with semantic list `[(0, 1)]` and empty keyword list, item
0 has fused score `1 = (1 + 0) * 1` and count 1. -/
theorem C7_combmnz_score_formula_witness :
    (1 : ℚ) =
      (combmnzEntry (dictOfList [(0, 1)]) (dictOfList [])
        (pyMax ((dictOfList ([] : List (ℕ × ℚ))).map Prod.snd)) 0).1 *
      ((combmnzEntry (dictOfList [(0, 1)]) (dictOfList [])
        (pyMax ((dictOfList ([] : List (ℕ × ℚ))).map Prod.snd)) 0).2 : ℚ) ∧
    ((combmnzEntry (dictOfList [(0, 1)]) (dictOfList [])
        (pyMax ((dictOfList ([] : List (ℕ × ℚ))).map Prod.snd)) 0).2 = 0 ∨
      (combmnzEntry (dictOfList [(0, 1)]) (dictOfList [])
        (pyMax ((dictOfList ([] : List (ℕ × ℚ))).map Prod.snd)) 0).2 = 1 ∨
      (combmnzEntry (dictOfList [(0, 1)]) (dictOfList [])
        (pyMax ((dictOfList ([] : List (ℕ × ℚ))).map Prod.snd)) 0).2 = 2) := by
  have hmem : ((0 : ℕ), (1 : ℚ)) ∈ fuse_combmnz [(0, 1)] [] := by
    simp [fuse_combmnz, dictOfList, dictOfListAux, allIndices, combmnzEntry,
      pyMax, dictSet, dictGet?, sortByScoreDesc, List.insertionSort,
      List.orderedInsert, List.dedup, List.pwFilter]
  exact C7_combmnz_score_formula [(0, 1)] [] 0 1 hmem

/-- C9: applying a metadata filter never increases the number of results
the collection loop returns, and the surviving results are a sublist of
the formatted fused list — they appear in their pre-filter relative
order. -/
theorem C9_filter_monotone :
    (∀ (items : List (List (String × String)))
        (filters : Option (List (String × String))) (tk : ℤ)
        (fused : List (ℕ × ℚ)) (rs rs' : List SearchResult),
        searchLoop items filters tk fused = .ok rs →
        searchLoop items none tk fused = .ok rs' →
        rs.length ≤ rs'.length) ∧
    (∀ (items : List (List (String × String)))
        (filters : Option (List (String × String))) (tk : ℤ)
        (fused : List (ℕ × ℚ)) (rs : List SearchResult),
        searchLoop items filters tk fused = .ok rs →
        rs.Sublist (formatAll items fused)) := by
  constructor
  · intro items filters tk fused rs rs' h h'
    have h1 := searchLoop_length_le fused tk rs h
    have h2 := searchLoop_none_length fused tk rs' h'
    omega
  · intro items filters tk fused rs h
    exact searchLoop_sublist fused tk rs h

/-- A two-item store used to exercise metadata filtering. -/
def items2 : List (List (String × String)) :=
  [[("text", "a"), ("category", "x")], [("text", "b"), ("category", "y")]]

/-- C9 witness: filtering `items2` on `category = y` keeps one of two
results, in pre-filter order. -/
theorem C9_filter_monotone_witness :
    ([⟨"1", "b", 1/2, [("category", "y")]⟩] : List SearchResult).length ≤
      ([⟨"0", "a", 1, [("category", "x")]⟩,
        ⟨"1", "b", 1/2, [("category", "y")]⟩] : List SearchResult).length ∧
    ([⟨"1", "b", 1/2, [("category", "y")]⟩] : List SearchResult).Sublist
      (formatAll items2 [(0, 1), (1, 1/2)]) := by
  have hf : searchLoop items2 (some [("category", "y")]) 10
      [(0, 1), (1, 1/2)] =
      .ok [⟨"1", "b", 1/2, [("category", "y")]⟩] := rfl
  have hn : searchLoop items2 none 10 [(0, 1), (1, 1/2)] =
      .ok [⟨"0", "a", 1, [("category", "x")]⟩,
        ⟨"1", "b", 1/2, [("category", "y")]⟩] := rfl
  exact ⟨C9_filter_monotone.1 items2 (some [("category", "y")]) 10
      [(0, 1), (1, 1/2)] _ _ hf hn,
    C9_filter_monotone.2 items2 (some [("category", "y")]) 10
      [(0, 1), (1, 1/2)] _ hf⟩

end HybridSearch

namespace Benchmarker

/-- C5: the claim says a failure mid-grid still yields a result for every
completed combination plus a recorded failure.  Neither `benchmark_ivf`
nor `run_all_benchmarks` contains any exception handling, so the first
failing combination aborts the sweep.  On the spec's own scenario — a
4-combination grid whose third combination has invalid `nprobe = 0` — the
harness returns an error carrying zero results, not 3 successes and a
recorded failure. -/
theorem C5_counterexample :
    benchmark_ivf nprobeZeroFails [4] [1, 10, 0, 50] =
      .error "nprobe must be positive" := rfl

/-- C5 (amended): a failing combination makes the whole sweep abort with
that error, discarding completed combinations and recording nothing; a
result list — with exactly one entry per grid combination — comes back
exactly when every combination succeeds. -/
theorem C5_sweep_aborts_on_failure {α : Type}
    (runCombo : ℕ → ℕ → Except String α) (nlists nprobes : List ℕ)
    (rs : List α) (h : benchmark_ivf runCombo nlists nprobes = .ok rs) :
    (∀ nl ∈ nlists, ∀ np ∈ nprobes, ∃ r, runCombo nl np = .ok r) ∧
      rs.length = nlists.length * nprobes.length :=
  benchmark_ivf_ok h

/-- C5 witness: the all-success grid `[100, 1000] × [1, 10]` yields
`2 * 2 = 4` results. -/
theorem C5_sweep_aborts_on_failure_witness :
    ([((100 : ℕ), (1 : ℕ)), (100, 10), (1000, 1), (1000, 10)] :
      List (ℕ × ℕ)).length =
      ([100, 1000] : List ℕ).length * ([1, 10] : List ℕ).length := by
  have h : benchmark_ivf allCombosSucceed [100, 1000] [1, 10] =
      .ok [(100, 1), (100, 10), (1000, 1), (1000, 10)] := rfl
  exact (C5_sweep_aborts_on_failure allCombosSucceed [100, 1000] [1, 10]
    [(100, 1), (100, 10), (1000, 1), (1000, 10)] h).2

/-- C6: per query, recall@K is `|pred_top_K ∩ truth_top_K| / K` whenever
the ground-truth row truncates to `K` distinct indices (the code divides
by `len(set(truth[:k]))`, which then equals `K`; exact-search ground
truth always satisfies this for `K ≤ 100`), and the reported value is the
mean over the query set; scoring a prediction against itself — the Exact
variant benchmarked on its own ground truth — gives recall exactly 1 for
every nonempty query set whose rows truncate nonempty. -/
theorem C6_recall_correct :
    (∀ (predicted ground_truth : List (List ℕ)) (k : ℕ),
        (∀ t ∈ ground_truth, (t.take k).Nodup ∧ (t.take k).length = k) →
        compute_recall predicted ground_truth k =
          pyMean ((predicted.zip ground_truth).map fun pt =>
            (((pt.1.take k).toFinset ∩ (pt.2.take k).toFinset).card : ℚ) /
              (k : ℚ))) ∧
    (∀ (ground_truth : List (List ℕ)) (k : ℕ), ground_truth ≠ [] →
        (∀ t ∈ ground_truth, t.take k ≠ []) →
        compute_recall ground_truth ground_truth k = 1) := by
  constructor
  · intro predicted ground_truth k hk
    unfold compute_recall
    congr 1
    refine List.map_congr_left ?_
    intro pt hpt
    obtain ⟨a, b⟩ := pt
    have hb : b ∈ ground_truth := (List.of_mem_zip hpt).2
    have hcard : (b.take k).toFinset.card = k := by
      rw [List.toFinset_card_of_nodup (hk b hb).1]
      exact (hk b hb).2
    simp only [hcard]
  · intro t k hne hrow
    unfold compute_recall
    apply pyMean_of_all_one
    · cases t with
      | nil => exact absurd rfl hne
      | cons x xs => simp [List.zip_cons_cons]
    · intro x hx
      rcases List.mem_map.mp hx with ⟨pt, hpt, rfl⟩
      obtain ⟨a, b⟩ := pt
      have hab : a = b := mem_zip_self hpt
      subst hab
      have hamem : a ∈ t := (List.of_mem_zip hpt).1
      have hnonn : a.take k ≠ [] := hrow a hamem
      rcases List.exists_mem_of_ne_nil _ hnonn with ⟨y, hy⟩
      have hcard : ((a.take k).toFinset).card ≠ 0 :=
        Finset.card_ne_zero_of_mem (List.mem_toFinset.mpr hy)
      rw [Finset.inter_self, div_self]
      exact_mod_cast hcard

/-- C6 witness: predicted `[0, 1]` against truth `[1, 2]` at `K = 2`
follows the `|∩|/K` formula, and a row scored against itself has
recall 1. -/
theorem C6_recall_correct_witness :
    compute_recall [[0, 1]] [[1, 2]] 2 =
      pyMean (([[0, 1]].zip [[1, 2]]).map fun pt =>
        (((pt.1.take 2).toFinset ∩ (pt.2.take 2).toFinset).card : ℚ) /
          ((2 : ℕ) : ℚ)) ∧
    compute_recall [[5]] [[5]] 1 = 1 :=
  ⟨C6_recall_correct.1 [[0, 1]] [[1, 2]] 2 (by decide),
   C6_recall_correct.2 [[5]] 1 (by decide) (by decide)⟩

end Benchmarker
